import Mathlib

/-!
Verification of the binary search tree module of
`elementary-algorithms-in-javascript` against its specification.

The JavaScript source represents a tree as either `null` or a `Node`
object with fields `key` (a number), `left`, `right` (children, `null`
when absent) and `parent` (back reference, `null` at the root).  We embed
trees as an inductive type with integer keys; `Tree.null` stands for the
JavaScript `null` tree and `Tree.node l k r` for a node object.  Parent
pointers are not stored: a node of a tree is identified by its access
path from the root (`List Dir`), from which the parent chain is derived,
exactly as the mutable structure maintains it after imperative inserts.
-/

open scoped List

namespace ElemAlgo

/-- Binary tree with integer keys, mirroring the `Node`/`null`
representation of the source (`key`/`left`/`right` fields). -/
inductive Tree where
  | null : Tree
  | node (left : Tree) (key : Int) (right : Tree) : Tree
  deriving DecidableEq

/-- Dynamic JavaScript values, as far as the `Node` constructor's
`typeof key === 'number'` check can distinguish them.  Payloads other
than numbers are irrelevant to that check and are omitted. -/
inductive JSValue where
  | num (n : Int)
  | str
  | boolean (b : Bool)
  | undef
  | nullv
  | obj
  deriving DecidableEq

/-- `utils.isNumber`: `typeof value === 'number'`. -/
def isNumber : JSValue → Bool
  | JSValue.num _ => true
  | _ => false

/-- The only error kind thrown by the module: `TypeError`. -/
inductive JSError where
  | typeError
  deriving DecidableEq

/-- The `Node` constructor: throws a `TypeError` when the key is not a
number, before any field of the object is assigned; otherwise produces a
node with the given children (absent children default to `null`). -/
def mkNode (key : JSValue) (left right : Tree) : Except JSError Tree :=
  match key with
  | JSValue.num n => Except.ok (Tree.node left n right)
  | _ => Except.error JSError.typeError

/-- `insert(T, k)`: the source's iterative loop walks down from the
root, going left when `k < T.key` and right otherwise, and attaches a
fresh leaf `new Node(k)` at the first empty slot (returning the new node
as root when the tree was empty).  The recursion below produces exactly
the tree that walk builds. -/
def insert (T : Tree) (k : Int) : Tree :=
  match T with
  | Tree.null => Tree.node Tree.null k Tree.null
  | Tree.node l key r =>
    if k < key then Tree.node (insert l k) key r
    else Tree.node l key (insert r k)

/-- `toList(T)`: `toList(T.left).concat(T.key, toList(T.right))`. -/
def toList : Tree → List Int
  | Tree.null => []
  | Tree.node l k r => toList l ++ k :: toList r

/-- `inOrderWalk(T, fn)`: applies the visitor to each key in order.  The
visitor's side effects are modelled by threading an accumulator through
the calls (the source's run-time check that `fn` is callable is
subsumed by the typed visitor argument). -/
def inOrderWalk {α : Type} (T : Tree) (fn : α → Int → α) (a : α) : α :=
  match T with
  | Tree.null => a
  | Tree.node l k r => inOrderWalk r fn (fn (inOrderWalk l fn a) k)

/-- `fromList(X)`: `if (!X.length) return null; var first = X.shift();
return insert(fromList(X), first);` — the tree for the tail is built
first and the head is inserted into it last. -/
def fromList : List Int → Tree
  | [] => Tree.null
  | first :: rest => insert (fromList rest) first

/-- `fromList` with the mutable argument array made explicit: `shift()`
removes the front element of the caller's array, and the recursive call
receives (and keeps mutating) that same array, so the function returns
both the tree and the final contents of the argument array. -/
def fromListM : List Int → Tree × List Int
  | [] => (Tree.null, [])
  | first :: rest =>
    let p := fromListM rest
    (insert p.1 first, p.2)

/-- `lookup(T, x)`: recursive search; returns the found node (as the
subtree rooted there) or `null`. -/
def lookup : Tree → Int → Tree
  | Tree.null, _ => Tree.null
  | Tree.node l k r, x =>
    if k = x then Tree.node l k r
    else if x < k then lookup l x
    else lookup r x

/-- `search(T, x)`: the iterative variant; the loop
`while (T && T.key !== x)` descends to a child each iteration, so it is
the tail recursion below. -/
def search : Tree → Int → Tree
  | Tree.null, _ => Tree.null
  | Tree.node l k r, x =>
    if k = x then Tree.node l k r
    else if x < k then search l x
    else search r x

/-- `min(T)`: returns `null` on an empty tree and otherwise the KEY
(`T.key`, a bare number — not the node) of the leftmost node. -/
def min : Tree → Option Int
  | Tree.null => none
  | Tree.node Tree.null k _ => some k
  | Tree.node l _ _ => min l

/-- `max(T)`: mirror image of `min`; returns the rightmost KEY. -/
def max : Tree → Option Int
  | Tree.null => none
  | Tree.node _ k Tree.null => some k
  | Tree.node _ _ r => max r

/-- A step from a node to one of its children. -/
inductive Dir where
  | L
  | R
  deriving DecidableEq

/-- The node of `T` reached by following the given root-to-node path,
or `none` when the path leaves the tree.  A path models a node
reference; its parent chain is the chain of path prefixes. -/
def nodeAt : Tree → List Dir → Option Tree
  | Tree.null, _ => none
  | Tree.node l k r, [] => some (Tree.node l k r)
  | Tree.node l _ _, Dir.L :: p => nodeAt l p
  | Tree.node _ _ r, Dir.R :: p => nodeAt r p

/-- Replace the subtree at the given path (splicing for `deleteNode`:
linking the replacement into the former parent's slot; with an empty
path the replacement becomes the new root). -/
def replaceAt : Tree → List Dir → Tree → Tree
  | _, [], s => s
  | Tree.null, _ :: _, _ => Tree.null
  | Tree.node l k r, Dir.L :: p, s => Tree.node (replaceAt l p s) k r
  | Tree.node l k r, Dir.R :: p, s => Tree.node l k (replaceAt r p s)

/-- A value returned by `succ`/`pred` in the source: `null`, a bare
number (what `min`/`max` return), or a node reference. -/
inductive JSRes where
  | nullr
  | num (n : Int)
  | nodeRef (p : List Dir)
  deriving DecidableEq

/-- The ascending loop of `succ` (`while (p && x === p.right)`),
expressed on the reversed (node-to-root) path: pop steps while the
current node is a right child; on the first left-child step the
remaining reversed path names the ancestor returned; reaching the root
returns `none` (JavaScript `null`). -/
def climbR : List Dir → Option (List Dir)
  | [] => none
  | Dir.R :: rest => climbR rest
  | Dir.L :: rest => some rest

/-- The ascending loop of `pred` (`while (p && x === p.left)`). -/
def climbL : List Dir → Option (List Dir)
  | [] => none
  | Dir.L :: rest => climbL rest
  | Dir.R :: rest => some rest

/-- `succ(x)` for the node of `T` at path `p`: when `x.right` is
non-null the source returns `min(x.right)` — a bare number, because
`min` returns `T.key`; otherwise it ascends through parent links and
returns an ancestor node or `null`. -/
def succ (T : Tree) (p : List Dir) : JSRes :=
  match nodeAt T p with
  | some (Tree.node _ _ (Tree.node rl rk rr)) =>
    JSRes.num ((min (Tree.node rl rk rr)).getD 0)
  | some _ =>
    match climbR p.reverse with
    | none => JSRes.nullr
    | some q => JSRes.nodeRef q.reverse
  | none => JSRes.nullr

/-- `pred(x)`: mirror image of `succ`; with a non-null left child it
returns `max(x.left)`, again a bare number. -/
def pred (T : Tree) (p : List Dir) : JSRes :=
  match nodeAt T p with
  | some (Tree.node (Tree.node ll lk lr) _ _) =>
    JSRes.num ((max (Tree.node ll lk lr)).getD 0)
  | some _ =>
    match climbL p.reverse with
    | none => JSRes.nullr
    | some q => JSRes.nodeRef q.reverse
  | none => JSRes.nullr

/-- `deleteValue(T, x)`: the purely functional deletion.  In the
two-child case the source builds
`new Node(min(T.right), T.left, deleteValue(T.right, min(T.right)))`;
there `min` is used as a key, which is what it returns.  `T.right` is a
node in that branch, so `min T.right` is `some`; `getD 0` only unwraps
it.  The `Node` constructor cannot throw here since every key involved
is a number. -/
def deleteValue : Tree → Int → Tree
  | Tree.null, _ => Tree.null
  | Tree.node l k r, x =>
    if x < k then Tree.node (deleteValue l x) k r
    else if k < x then Tree.node l k (deleteValue r x)
    else
      match l, r with
      | Tree.null, _ => r
      | _, Tree.null => l
      | _, _ => Tree.node l ((min r).getD 0) (deleteValue r ((min r).getD 0))

/-- `deleteNode(T, x)` for the node referenced by path `p` (`none`
models calling it with a null node: the tree is returned unchanged).
With at most one child the node is spliced out, its child linked into
the former parent's slot (parent pointers follow from the structure).
With two children the source runs `var y = min(x.right)`; `min` returns
a bare number, so `x.key = y.key` stores `undefined` and
`y.parent.left = y.right` reads `y.parent` — `undefined` — and the
assignment to a property of `undefined` throws a `TypeError` in strict
mode.  The call therefore ends in a thrown `TypeError` (the target
node's key having already been clobbered). -/
def deleteNode (T : Tree) (x : Option (List Dir)) : Except JSError Tree :=
  match x with
  | none => Except.ok T
  | some p =>
    match nodeAt T p with
    | none => Except.ok T
    | some Tree.null => Except.ok T
    | some (Tree.node Tree.null _ r) => Except.ok (replaceAt T p r)
    | some (Tree.node (Tree.node ll lk lr) _ Tree.null) =>
      Except.ok (replaceAt T p (Tree.node ll lk lr))
    | some (Tree.node (Tree.node _ _ _) _ (Tree.node _ _ _)) =>
      Except.error JSError.typeError

/-- Number of nodes of a tree. -/
def size : Tree → Nat
  | Tree.null => 0
  | Tree.node l _ r => size l + 1 + size r

/-- The strict binary-search-tree invariant of the specification: at
every node all keys of the left subtree are strictly below the node's
key and all keys of the right subtree strictly above it. -/
def BST : Tree → Prop
  | Tree.null => True
  | Tree.node l k r =>
    (∀ x ∈ toList l, x < k) ∧ (∀ x ∈ toList r, k < x) ∧ BST l ∧ BST r

/-- The invariant actually maintained by `insert`, which routes equal
keys to the right: left keys strictly below, right keys at or above. -/
def BSTle : Tree → Prop
  | Tree.null => True
  | Tree.node l k r =>
    (∀ x ∈ toList l, x < k) ∧ (∀ x ∈ toList r, k ≤ x) ∧ BSTle l ∧ BSTle r

def decBST : (t : Tree) → Decidable (BST t)
  | Tree.null => Decidable.isTrue trivial
  | Tree.node l k r =>
    haveI : Decidable (BST l) := decBST l
    haveI : Decidable (BST r) := decBST r
    inferInstanceAs
      (Decidable ((∀ x ∈ toList l, x < k) ∧ (∀ x ∈ toList r, k < x) ∧ BST l ∧ BST r))

instance : ∀ t, Decidable (BST t) := decBST

/-- The worked example of the source (figure 1.2): the tree grown by
the imperative `insert` from the keys 4, 3, 8, 1, 7, 16, 2, 10, 9, 14
in that order. -/
def example10 : Tree :=
  List.foldl insert Tree.null [4, 3, 8, 1, 7, 16, 2, 10, 9, 14]

/-! ## Theorems -/

theorem toList_insert_perm (t : Tree) (k : Int) :
    toList (insert t k) ~ k :: toList t := by
  induction t with
  | null => simp [insert, toList]
  | node l key r ihl ihr =>
    by_cases h : k < key
    · simp only [insert, if_pos h, toList]
      calc toList (insert l k) ++ key :: toList r
          ~ (k :: toList l) ++ key :: toList r := (ihl).append_right _
        _ = k :: (toList l ++ key :: toList r) := by simp
    · simp only [insert, if_neg h, toList]
      calc toList l ++ key :: toList (insert r k)
          ~ toList l ++ key :: (k :: toList r) := by
            exact List.Perm.append_left _ ((ihr).cons key)
        _ = (toList l ++ [key]) ++ k :: toList r := by simp
        _ ~ k :: ((toList l ++ [key]) ++ toList r) := List.perm_middle
        _ = k :: (toList l ++ key :: toList r) := by simp

theorem mem_toList_insert {t : Tree} {k x : Int} :
    x ∈ toList (insert t k) ↔ x = k ∨ x ∈ toList t := by
  rw [(toList_insert_perm t k).mem_iff, List.mem_cons]

theorem BSTle_insert (t : Tree) (k : Int) (h : BSTle t) : BSTle (insert t k) := by
  induction t with
  | null => exact ⟨by simp [toList], by simp [toList], trivial, trivial⟩
  | node l key r ihl ihr =>
    obtain ⟨hl, hr, bl, br⟩ := h
    by_cases hk : k < key
    · simp only [insert, if_pos hk]
      refine ⟨?_, hr, ihl bl, br⟩
      intro x hx
      rcases mem_toList_insert.mp hx with rfl | hx
      · exact hk
      · exact hl x hx
    · simp only [insert, if_neg hk]
      refine ⟨hl, ?_, bl, ihr br⟩
      intro x hx
      rcases mem_toList_insert.mp hx with rfl | hx
      · exact le_of_not_lt hk
      · exact hr x hx

theorem sorted_toList_le (t : Tree) (h : BSTle t) :
    List.Sorted (· ≤ ·) (toList t) := by
  induction t with
  | null => simp [toList]
  | node l k r ihl ihr =>
    obtain ⟨hl, hr, bl, br⟩ := h
    simp only [toList, List.Sorted, List.pairwise_append]
    refine ⟨ihl bl, ?_, ?_⟩
    · rw [List.pairwise_cons]
      exact ⟨hr, ihr br⟩
    · intro a ha b hb
      rcases List.mem_cons.mp hb with rfl | hb
      · exact le_of_lt (hl a ha)
      · exact le_of_lt (lt_of_lt_of_le (hl a ha) (hr b hb))

theorem sorted_toList_lt (t : Tree) (h : BST t) :
    List.Sorted (· < ·) (toList t) := by
  induction t with
  | null => simp [toList]
  | node l k r ihl ihr =>
    obtain ⟨hl, hr, bl, br⟩ := h
    simp only [toList, List.Sorted, List.pairwise_append]
    refine ⟨ihl bl, ?_, ?_⟩
    · rw [List.pairwise_cons]
      exact ⟨hr, ihr br⟩
    · intro a ha b hb
      rcases List.mem_cons.mp hb with rfl | hb
      · exact hl a ha
      · exact lt_trans (hl a ha) (hr b hb)

theorem toList_foldl_perm (X : List Int) :
    ∀ t : Tree, toList (List.foldl insert t X) ~ X ++ toList t := by
  induction X with
  | nil => intro t; simp
  | cons x xs ih =>
    intro t
    simp only [List.foldl_cons, List.cons_append]
    calc toList (List.foldl insert (insert t x) xs)
        ~ xs ++ toList (insert t x) := ih _
      _ ~ xs ++ (x :: toList t) := List.Perm.append_left _ (toList_insert_perm t x)
      _ ~ x :: (xs ++ toList t) := List.perm_middle

theorem BSTle_foldl (X : List Int) :
    ∀ t : Tree, BSTle t → BSTle (List.foldl insert t X) := by
  induction X with
  | nil => intro t h; exact h
  | cons x xs ih =>
    intro t h
    exact ih _ (BSTle_insert t x h)

theorem toList_foldl_eq_sort (X : List Int) :
    toList (List.foldl insert Tree.null X) = List.insertionSort (· ≤ ·) X := by
  have hperm : toList (List.foldl insert Tree.null X) ~ List.insertionSort (· ≤ ·) X :=
    calc toList (List.foldl insert Tree.null X)
        ~ X ++ toList Tree.null := toList_foldl_perm X Tree.null
      _ = X := by simp [toList]
      _ ~ List.insertionSort (· ≤ ·) X := (List.perm_insertionSort _ X).symm
  have hs : List.Sorted (· ≤ ·) (toList (List.foldl insert Tree.null X)) :=
    sorted_toList_le _ (BSTle_foldl X Tree.null trivial)
  exact List.eq_of_perm_of_sorted hperm hs (List.sorted_insertionSort _ X)

theorem inOrderWalk_acc (t : Tree) :
    ∀ a : List Int, inOrderWalk t (fun l k => l ++ [k]) a = a ++ toList t := by
  induction t with
  | null => intro a; simp [inOrderWalk, toList]
  | node l k r ihl ihr =>
    intro a
    simp [inOrderWalk, toList, ihl, ihr]

theorem toList_fromList_perm : ∀ X : List Int, toList (fromList X) ~ X := by
  intro X
  induction X with
  | nil => simp [fromList, toList]
  | cons x xs ih =>
    calc toList (fromList (x :: xs))
        ~ x :: toList (fromList xs) := toList_insert_perm _ x
      _ ~ x :: xs := ih.cons x

theorem BSTle_fromList : ∀ X : List Int, BSTle (fromList X)
  | [] => trivial
  | x :: xs => BSTle_insert _ x (BSTle_fromList xs)

theorem toList_fromList_eq_sort (X : List Int) :
    toList (fromList X) = List.insertionSort (· ≤ ·) X := by
  have hperm : toList (fromList X) ~ List.insertionSort (· ≤ ·) X :=
    (toList_fromList_perm X).trans (List.perm_insertionSort _ X).symm
  have hs : List.Sorted (· ≤ ·) (toList (fromList X)) :=
    sorted_toList_le _ (BSTle_fromList X)
  exact List.eq_of_perm_of_sorted hperm hs (List.sorted_insertionSort _ X)

/-- Claim C2: for every finite key sequence, the in-order traversal
(`toList`, or `inOrderWalk` with an accumulating visitor) of the tree
grown by inserting the keys one by one into an initially empty tree is
exactly the sequence sorted ascending; in particular inserting
4, 3, 8, 1, 7, 16, 2, 10, 9, 14 yields 1, 2, 3, 4, 7, 8, 9, 10, 14, 16. -/
theorem insert_inorder_sorted :
    (∀ X : List Int,
      toList (List.foldl insert Tree.null X) = List.insertionSort (· ≤ ·) X) ∧
    (∀ X : List Int,
      inOrderWalk (List.foldl insert Tree.null X) (fun l k => l ++ [k]) [] =
        List.insertionSort (· ≤ ·) X) ∧
    toList (List.foldl insert Tree.null [4, 3, 8, 1, 7, 16, 2, 10, 9, 14]) =
      [1, 2, 3, 4, 7, 8, 9, 10, 14, 16] := by
  refine ⟨toList_foldl_eq_sort, ?_, by decide⟩
  intro X
  rw [inOrderWalk_acc, List.nil_append, toList_foldl_eq_sort]

/-- Claim C3: `toList (fromList X)` equals X sorted ascending for every
finite X, and the empty sequence gives the empty tree and the empty
result. -/
theorem toList_fromList_sorted :
    (∀ X : List Int, toList (fromList X) = List.insertionSort (· ≤ ·) X) ∧
    fromList [] = Tree.null ∧ toList (fromList []) = [] :=
  ⟨toList_fromList_eq_sort, rfl, rfl⟩

theorem min_eq_head (t : Tree) : min t = (toList t).head? := by
  induction t with
  | null => rfl
  | node l k r ihl ihr =>
    cases l with
    | null => simp [min, toList]
    | node a b c =>
      rw [show min (Tree.node (Tree.node a b c) k r) = min (Tree.node a b c) from rfl,
        ihl]
      show (toList (Tree.node a b c)).head? =
        (toList (Tree.node a b c) ++ k :: toList r).head?
      cases h : toList (Tree.node a b c) with
      | nil => simp [toList] at h
      | cons m tail => rfl

theorem min_node_eq (l r : Tree) (k : Int) :
    ∃ m tail, min (Tree.node l k r) = some m ∧ toList (Tree.node l k r) = m :: tail := by
  cases ht : toList (Tree.node l k r) with
  | nil => exact absurd ht (by simp [toList])
  | cons m tail =>
    refine ⟨m, tail, ?_, rfl⟩
    rw [min_eq_head, ht]
    rfl

theorem deleteValue_lt {l r : Tree} {k x : Int} (h : x < k) :
    deleteValue (Tree.node l k r) x = Tree.node (deleteValue l x) k r := by
  simp [deleteValue, h]

theorem deleteValue_gt {l r : Tree} {k x : Int} (h1 : ¬x < k) (h2 : k < x) :
    deleteValue (Tree.node l k r) x = Tree.node l k (deleteValue r x) := by
  simp [deleteValue, h1, h2]

theorem deleteValue_eq_lnull {r : Tree} {k : Int} :
    deleteValue (Tree.node Tree.null k r) k = r := by
  simp [deleteValue]

theorem deleteValue_eq_rnull {a c : Tree} {b k : Int} :
    deleteValue (Tree.node (Tree.node a b c) k Tree.null) k = Tree.node a b c := by
  simp [deleteValue]

theorem deleteValue_eq_two {a c d f : Tree} {b e k : Int} :
    deleteValue (Tree.node (Tree.node a b c) k (Tree.node d e f)) k =
      Tree.node (Tree.node a b c) ((min (Tree.node d e f)).getD 0)
        (deleteValue (Tree.node d e f) ((min (Tree.node d e f)).getD 0)) := by
  simp [deleteValue]

theorem toList_deleteValue :
    ∀ t : Tree, BST t → ∀ x : Int,
      toList (deleteValue t x) = (toList t).erase x := by
  intro t
  induction t with
  | null => intro _ x; rfl
  | node l k r ihl ihr =>
    intro h x
    obtain ⟨hl, hr, bl, br⟩ := h
    by_cases h1 : x < k
    · rw [deleteValue_lt h1]
      show toList (deleteValue l x) ++ k :: toList r = (toList l ++ k :: toList r).erase x
      rw [ihl bl x]
      by_cases hm : x ∈ toList l
      · rw [List.erase_append_left _ hm]
      · have hx : x ∉ toList l ++ k :: toList r := by
          intro hx
          rcases List.mem_append.mp hx with hx | hx
          · exact hm hx
          · rcases List.mem_cons.mp hx with rfl | hx
            · exact lt_irrefl x h1
            · exact lt_asymm h1 (hr x hx)
        rw [List.erase_of_not_mem hm, List.erase_of_not_mem hx]
    · by_cases h2 : k < x
      · rw [deleteValue_gt h1 h2]
        show toList l ++ k :: toList (deleteValue r x) = (toList l ++ k :: toList r).erase x
        rw [ihr br x]
        have hxl : x ∉ toList l := fun hx => absurd h2 (lt_asymm (hl x hx))
        rw [List.erase_append_right _ hxl,
          List.erase_cons_tail (by simp; exact ne_of_lt h2)]
      · have hx : x = k := le_antisymm (le_of_not_lt h2) (le_of_not_lt h1)
        subst hx
        cases l with
        | null =>
          rw [deleteValue_eq_lnull]
          show toList r = (toList Tree.null ++ x :: toList r).erase x
          simp [toList]
        | node a b c =>
          have hkl : x ∉ toList (Tree.node a b c) := fun hmem => lt_irrefl x (hl x hmem)
          cases r with
          | null =>
            rw [deleteValue_eq_rnull]
            show toList (Tree.node a b c) =
              (toList (Tree.node a b c) ++ x :: toList Tree.null).erase x
            rw [List.erase_append_right _ hkl]
            simp [toList]
          | node d e f =>
            obtain ⟨m, tail, hm, htl⟩ := min_node_eq d f e
            rw [deleteValue_eq_two, hm]
            simp only [Option.getD_some]
            show toList (Tree.node a b c) ++ m :: toList (deleteValue (Tree.node d e f) m) =
              (toList (Tree.node a b c) ++ x :: toList (Tree.node d e f)).erase x
            rw [ihr br m, htl, List.erase_append_right _ hkl, List.erase_cons_head,
              List.erase_cons_head]

theorem BST_deleteValue :
    ∀ t : Tree, BST t → ∀ x : Int, BST (deleteValue t x) := by
  intro t
  induction t with
  | null => intro _ x; exact trivial
  | node l k r ihl ihr =>
    intro h x
    obtain ⟨hl, hr, bl, br⟩ := h
    by_cases h1 : x < k
    · rw [deleteValue_lt h1]
      refine ⟨?_, hr, ihl bl x, br⟩
      intro y hy
      rw [toList_deleteValue l bl x] at hy
      exact hl y (List.erase_subset x (toList l) hy)
    · by_cases h2 : k < x
      · rw [deleteValue_gt h1 h2]
        refine ⟨hl, ?_, bl, ihr br x⟩
        intro y hy
        rw [toList_deleteValue r br x] at hy
        exact hr y (List.erase_subset x (toList r) hy)
      · have hx : x = k := le_antisymm (le_of_not_lt h2) (le_of_not_lt h1)
        subst hx
        cases l with
        | null => rw [deleteValue_eq_lnull]; exact br
        | node a b c =>
          cases r with
          | null => rw [deleteValue_eq_rnull]; exact bl
          | node d e f =>
            obtain ⟨m, tail, hm, htl⟩ := min_node_eq d f e
            rw [deleteValue_eq_two, hm]
            simp only [Option.getD_some]
            have hmem : m ∈ toList (Tree.node d e f) := by
              rw [htl]; exact List.mem_cons_self m tail
            have hkm : x < m := hr m hmem
            have hsr : List.Sorted (· < ·) (toList (Tree.node d e f)) :=
              sorted_toList_lt _ br
            refine ⟨?_, ?_, bl, ihr br m⟩
            · intro y hy
              exact lt_trans (hl y hy) hkm
            · intro y hy
              rw [toList_deleteValue _ br m, htl, List.erase_cons_head] at hy
              rw [htl] at hsr
              exact List.rel_of_sorted_cons hsr y hy

theorem size_eq_length (t : Tree) : size t = (toList t).length := by
  induction t with
  | null => rfl
  | node l k r ihl ihr =>
    simp [size, toList, ihl, ihr]
    omega

/-- Claim C4: on a tree satisfying the BST invariant, `deleteValue`
with a present key returns a tree with exactly one fewer node that
still satisfies the invariant, and with an absent key it runs without
error and returns a tree with the same in-order key sequence. -/
theorem deleteValue_spec (T : Tree) (k : Int) (hT : BST T) :
    (k ∈ toList T → size (deleteValue T k) + 1 = size T ∧ BST (deleteValue T k)) ∧
    (k ∉ toList T → toList (deleteValue T k) = toList T) := by
  constructor
  · intro hmem
    refine ⟨?_, BST_deleteValue T hT k⟩
    rw [size_eq_length, size_eq_length, toList_deleteValue T hT k,
      List.length_erase_of_mem hmem]
    have hpos : 0 < (toList T).length := List.length_pos.mpr (List.ne_nil_of_mem hmem)
    omega
  · intro hmem
    rw [toList_deleteValue T hT k, List.erase_of_not_mem hmem]

theorem deleteValue_spec_witness :
    (size (deleteValue (List.foldl insert Tree.null [2, 1, 3]) 2) + 1 =
        size (List.foldl insert Tree.null [2, 1, 3]) ∧
      BST (deleteValue (List.foldl insert Tree.null [2, 1, 3]) 2)) ∧
    toList (deleteValue (List.foldl insert Tree.null [2, 1, 3]) 5) =
      toList (List.foldl insert Tree.null [2, 1, 3]) :=
  ⟨(deleteValue_spec (List.foldl insert Tree.null [2, 1, 3]) 2 (by decide)).1 (by decide),
   (deleteValue_spec (List.foldl insert Tree.null [2, 1, 3]) 5 (by decide)).2 (by decide)⟩

/-- Claim C7: the recursive `lookup` and the iterative `search` return
the same result on every tree and value — the same node when the value
is found and `null` when it is not — and `lookup` on an empty tree
always returns `null`. -/
theorem lookup_eq_search :
    (∀ (T : Tree) (x : Int), lookup T x = search T x) ∧
    ∀ x : Int, lookup Tree.null x = Tree.null := by
  constructor
  · intro T x
    induction T with
    | null => rfl
    | node l k r ihl ihr =>
      by_cases h1 : k = x
      · simp [lookup, search, h1]
      · by_cases h2 : x < k
        · simp [lookup, search, h1, h2, ihl]
        · simp [lookup, search, h1, h2, ihr]
  · intro x
    rfl

/-- Claim C8 (counterexample): `fromList` does not build the tree by
inserting the elements in left-to-right order; on `[1, 2]` the
left-to-right fold of `insert` roots the tree at 1, while `fromList`
inserts 2 first and roots the tree at 2. -/
theorem fromList_not_foldl :
    fromList [1, 2] ≠ List.foldl insert Tree.null [1, 2] := by
  decide

/-- Claim C8 (amended): `fromList(X)` equals the tree obtained by
inserting the elements of X in right-to-left order — the last element
first — i.e. a left fold of `insert` over the reversed list. -/
theorem fromList_eq_foldl_reverse :
    ∀ X : List Int, fromList X = List.foldl insert Tree.null X.reverse := by
  intro X
  induction X with
  | nil => rfl
  | cons x xs ih =>
    rw [show fromList (x :: xs) = insert (fromList xs) x from rfl, ih,
      List.reverse_cons, List.foldl_append]
    rfl

/-- Claim C9: constructing a `Node` with a non-numeric key fails with a
`TypeError` before any node is produced, and construction with a
numeric key succeeds, yielding the node with that key and the given
children. -/
theorem mkNode_type_check (v : JSValue) (l r : Tree) :
    (isNumber v = false → mkNode v l r = Except.error JSError.typeError) ∧
    (∀ n : Int, v = JSValue.num n → mkNode v l r = Except.ok (Tree.node l n r)) := by
  cases v <;> simp [isNumber, mkNode]

theorem mkNode_type_check_witness :
    mkNode JSValue.str Tree.null Tree.null = Except.error JSError.typeError ∧
    mkNode (JSValue.num 5) Tree.null Tree.null =
      Except.ok (Tree.node Tree.null 5 Tree.null) :=
  ⟨(mkNode_type_check JSValue.str Tree.null Tree.null).1 rfl,
   (mkNode_type_check (JSValue.num 5) Tree.null Tree.null).2 5 rfl⟩

/-- Claim C10: `fromList` consumes its argument array: `shift()`
removes the elements from the front one by one and the recursive call
keeps draining the same array, so after the call the caller's array is
empty, while the returned tree is the one `fromList` is specified to
build. -/
theorem fromListM_consumes :
    ∀ X : List Int, (fromListM X).2 = [] ∧ (fromListM X).1 = fromList X := by
  intro X
  induction X with
  | nil => exact ⟨rfl, rfl⟩
  | cons x xs ih =>
    refine ⟨?_, ?_⟩
    · simpa [fromListM] using ih.1
    · simp [fromListM, fromList, ih.2]

/-- Claim C1: in the tree built from 4, 3, 8, 1, 7, 16, 2, 10, 9, 14
the node with key 8 has two non-null children, and `deleteNode` on it
does not return the claimed tree: because `min` returns a bare key, the
splice step dereferences `undefined` and the call throws a
`TypeError`. -/
theorem deleteNode_twoChild_crash :
    nodeAt example10 [Dir.R] =
      some (Tree.node (Tree.node Tree.null 7 Tree.null) 8
        (Tree.node
          (Tree.node (Tree.node Tree.null 9 Tree.null) 10
            (Tree.node Tree.null 14 Tree.null))
          16 Tree.null)) ∧
    deleteNode example10 (some [Dir.R]) = Except.error JSError.typeError := by
  exact ⟨rfl, rfl⟩

/-- Claim C5: for the node with key 8 of the example tree, which has a
right child, `succ` returns the bare number 9 — the result of `min` on
the right subtree — and a bare number is neither a node reference nor
the absent result. -/
theorem succ_rightChild_returns_key :
    succ example10 [Dir.R] = JSRes.num 9 ∧
    (∀ p : List Dir, JSRes.num 9 ≠ JSRes.nodeRef p) ∧
    JSRes.num (9 : Int) ≠ JSRes.nullr := by
  refine ⟨rfl, ?_, ?_⟩
  · intro p h
    exact JSRes.noConfusion h
  · intro h
    exact JSRes.noConfusion h

/-- Claim C6: in the example tree, the node with key 7 has successor
node 8 (reached by ascending parent links), but `pred` of that
successor is the bare number 7 — the result of `max` on its left
subtree — and not the node with key 7 itself. -/
theorem pred_succ_not_inverse :
    nodeAt example10 [Dir.R, Dir.L] = some (Tree.node Tree.null 7 Tree.null) ∧
    succ example10 [Dir.R, Dir.L] = JSRes.nodeRef [Dir.R] ∧
    pred example10 [Dir.R] = JSRes.num 7 ∧
    JSRes.num (7 : Int) ≠ JSRes.nodeRef [Dir.R, Dir.L] := by
  refine ⟨rfl, rfl, rfl, ?_⟩
  intro h
  exact JSRes.noConfusion h

end ElemAlgo
